import Mathlib

/-!
# TinyLink link registry — shallow embedding

A shallow embedding of the TinyLink URL shortener's link registry
(Next.js route handlers backed by Prisma), covering:

* `app/api/links/route.ts` — `POST` (create a link, with the
  `generateUniqueCode` retry loop and `isValidUrl` / `CODE_REGEX`
  validation) and `GET` (list all links ordered by `createdAt` desc);
* `app/[code]/route.ts` — `GET` (redirect: `findUnique` existence check,
  then an atomic `update` with `totalClicks: { increment: 1 }` and
  `lastClickedAt: new Date()`);
* `app/api/links/[code]/route.ts` — `GET` (stats for one code) and
  `DELETE`.

The Prisma store is modelled as a list of rows keyed by `code`, with the
store primitives the handlers invoke (`findUnique`, `create`, `update`,
`delete`, `findMany orderBy`) as explicit functions.  Timestamps are
`Nat`.  JavaScript's `Math.random` draws are modelled as an explicit tape
of draws from `Fin 62`, and the unbounded `while (true)` generation loop
as recursion over a finite tape of attempts (`none` = tape exhausted,
a modelling artifact for nontermination, never a behavior of the source).
Each handler also reports the sequence of store operations it performed,
so that properties about *how* the store is accessed (e.g. a read of a
code's existence followed by a separate insert) are statable.
-/

/-- The persisted record shape: one row of the `Link` table. -/
structure Link where
  code : String
  targetUrl : String
  totalClicks : Nat
  lastClickedAt : Option Nat
  createdAt : Nat
deriving Repr, DecidableEq

/-- The store: the rows of the `Link` table, keyed by `code`. -/
abbrev Store := List Link

/-- A store operation issued by a handler, recorded for trace-level
properties (which Prisma calls ran, in which order, on which key). -/
inductive StoreOp where
  | query (code : String)
  | insert (code : String)
  | update (code : String)
  | delete (code : String)
deriving Repr, DecidableEq, BEq

/-- `prisma.link.findUnique({ where: { code } })`: get-by-key. -/
def findUnique : Store → String → Option Link
  | [], _ => none
  | l :: rest, code => if l.code = code then some l else findUnique rest code

/-- Modelled from the spec: the store exposes a unique-constrained
insert-by-key (`prisma.link.create`; the Prisma schema declaring `code`
`@unique` is not under `src/`).  Returns `none` (the insert is rejected,
Prisma throws) when the key is already present. -/
def insertRow (s : Store) (l : Link) : Option Store :=
  match findUnique s l.code with
  | some _ => none
  | none => some (s ++ [l])

/-- The row produced by `prisma.link.update` on the redirect path:
`totalClicks: { increment: 1 }, lastClickedAt: new Date()`. -/
def clickUpdate (l : Link) (now : Nat) : Link :=
  { l with totalClicks := l.totalClicks + 1, lastClickedAt := some now }

/-- `prisma.link.update({ where: { code }, data: { totalClicks:
{ increment: 1 }, lastClickedAt: new Date() } })`: a single store-level
atomic increment-and-set on the row with the given key.  Returns `none`
(Prisma throws) when no row has the key. -/
def updateRow : Store → String → Nat → Option Store
  | [], _, _ => none
  | l :: rest, code, now =>
    if l.code = code then some (clickUpdate l now :: rest)
    else
      match updateRow rest code now with
      | some rest' => some (l :: rest')
      | none => none

/-- `prisma.link.delete({ where: { code } })`: delete-by-key.  Returns
`none` (Prisma throws) when no row has the key. -/
def deleteRow : Store → String → Option Store
  | [], _ => none
  | l :: rest, code =>
    if l.code = code then some rest
    else
      match deleteRow rest code with
      | some rest' => some (l :: rest')
      | none => none

/-- Modelled from the spec: the Prisma schema (not under `src/`) supplies
the defaults used by `prisma.link.create({ data: { code, targetUrl } })`:
`totalClicks = 0`, `lastClickedAt = null`, `createdAt = now()`. -/
def mkLink (code url : String) (now : Nat) : Link :=
  { code := code, targetUrl := url, totalClicks := 0,
    lastClickedAt := none, createdAt := now }

/-! ## URL validation (`isValidUrl` in `app/api/links/route.ts`) -/

/-- A character allowed in a URL scheme after the first (WHATWG/RFC 3986:
ASCII alphanumerics, `+`, `-`, `.`). -/
def isSchemeChar (c : Char) : Bool :=
  c.isAlphanum || c == '+' || c == '-' || c == '.'

/-- Split a character list at its first `:`: the part before (the
candidate scheme) and the part after.  `none` when no `:` occurs, in
which case `new URL` throws for an absolute-URL string. -/
def splitFirstColon : List Char → Option (List Char × List Char)
  | [] => none
  | c :: rest =>
    if c = ':' then some ([], rest)
    else
      match splitFirstColon rest with
      | some (a, b) => some (c :: a, b)
      | none => none

/-- `new URL(url)`, simplified to what the handler observes: split off a
scheme (a leading ASCII letter followed by scheme characters, up to the
first `:`), lowercase it as the WHATWG parser does, and — since the only
schemes the handler then accepts are the special schemes `http`/`https`,
for which the parser demands a nonempty host — require a nonempty
remainder after skipping slashes.  Returns the normalized `protocol`
(scheme plus `:`) on success, `none` when `new URL` would throw. -/
def parseUrlProtocol (url : String) : Option String :=
  match splitFirstColon url.toList with
  | some (scheme, remainder) =>
    if scheme.all isSchemeChar && (scheme.headD ' ').isAlpha
        && !(remainder.dropWhile (· = '/')).isEmpty then
      some (String.mk (scheme.map Char.toLower) ++ ":")
    else none
  | none => none

/-- `isValidUrl` from `app/api/links/route.ts`: parse with `new URL` and
accept exactly the protocols `http:` and `https:`. -/
def isValidUrl (url : String) : Bool :=
  match parseUrlProtocol url with
  | some protocol => decide (protocol = "http:") || decide (protocol = "https:")
  | none => false

/-! ## Code validation (`CODE_REGEX = /^[A-Za-z0-9]{6,8}$/`) -/

/-- Membership in the regex character class `[A-Za-z0-9]`. -/
def isCodeChar (c : Char) : Bool :=
  ('A' ≤ c && c ≤ 'Z') || ('a' ≤ c && c ≤ 'z') || ('0' ≤ c && c ≤ '9')

/-- `CODE_REGEX.test(code)` for `^[A-Za-z0-9]{6,8}$`. -/
def codeRegexTest (s : String) : Bool :=
  6 ≤ s.length && s.length ≤ 8 && s.toList.all isCodeChar

/-- The regex `^[A-Za-z0-9]{6}$` used by the spec for generated codes. -/
def matchesCode6 (s : String) : Bool :=
  s.length = 6 && s.toList.all isCodeChar

/-! ## Code generation (`generateUniqueCode` in `app/api/links/route.ts`) -/

/-- The 62-character alphabet `chars` of `generateUniqueCode`. -/
def chars : String :=
  "ABCDEFGHIJKLMNOPQRSTUVWXYZabcdefghijklmnopqrstuvwxyz0123456789"

def charsList : List Char := chars.toList

/-- `randomCode(6)`: build a 6-character string whose `i`-th character is
`chars[draw i]`, where `draw` is the tape of `Math.floor(Math.random() *
chars.length)` draws for this attempt. -/
def randomCode (draw : Fin 6 → Fin 62) : String :=
  String.mk ((List.finRange 6).map fun i =>
    charsList.get (Fin.cast (by decide : (62 : Nat) = charsList.length) (draw i)))

/-- The `while (true)` loop of `generateUniqueCode`: draw a candidate,
look it up with `findUnique`, return it if absent, otherwise retry with
the next attempt's draws.  The recursion is over the explicit tape of
attempts; `none` means the tape ran out (a modelling artifact — the
source loops forever).  Also returns the trace of store queries made. -/
def generateUniqueCode (s : Store) :
    List (Fin 6 → Fin 62) → Option (String × List StoreOp)
  | [] => none
  | draw :: rest =>
    let code := randomCode draw
    match findUnique s code with
    | none => some (code, [.query code])
    | some _ =>
      match generateUniqueCode s rest with
      | some (c, tr) => some (c, .query code :: tr)
      | none => none

/-! ## POST /api/links (create) -/

/-- The request body fields the handler reads: `body?.targetUrl` and
`body?.code` (`none` = the JSON field is absent). -/
structure CreateInput where
  targetUrl : Option String
  code : Option String

/-- Outcome of the create handler, by response: `created` = 201 with the
serialized link, `invalidTarget`/`invalidCode` = the two 400 responses,
`codeConflict` = 409, `internalError` = the catch-all 500. -/
inductive CreateResult where
  | created (link : Link)
  | invalidTarget
  | invalidCode
  | codeConflict
  | internalError
deriving Repr, DecidableEq

/-- The auto-generation arm of `POST` (the `else` of `if (code)`):
`code = await generateUniqueCode()` followed by `prisma.link.create`.
A rejected insert surfaces through the catch-all as a 500. -/
def autoCreate (s : Store) (attempts : List (Fin 6 → Fin 62)) (now : Nat)
    (url : String) : Option (CreateResult × Store × List StoreOp) :=
  match generateUniqueCode s attempts with
  | none => none
  | some (c, tr) =>
    let link := mkLink c url now
    match insertRow s link with
    | some s' => some (.created link, s', tr ++ [.insert c])
    | none => some (.internalError, s, tr ++ [.insert c])

/-- `POST /api/links` from `app/api/links/route.ts`.  Reads `targetUrl`
and `code` from the body; rejects a missing/empty/invalid `targetUrl`
(JavaScript's `!targetUrl` is true for both `undefined` and `""`); if
`code` is truthy (present and nonempty) it must match `CODE_REGEX` and
must not already exist (`findUnique` pre-check), then a separate
`prisma.link.create` inserts it; otherwise the code is auto-generated.
Returns the handler outcome, the resulting store, and the trace of store
operations performed. -/
def post (s : Store) (attempts : List (Fin 6 → Fin 62)) (now : Nat)
    (input : CreateInput) : Option (CreateResult × Store × List StoreOp) :=
  match input.targetUrl with
  | none => some (.invalidTarget, s, [])
  | some url =>
    if url = "" || !isValidUrl url then some (.invalidTarget, s, [])
    else
      match input.code with
      | some c =>
        if c = "" then autoCreate s attempts now url
        else if !codeRegexTest c then some (.invalidCode, s, [])
        else
          match findUnique s c with
          | some _ => some (.codeConflict, s, [.query c])
          | none =>
            let link := mkLink c url now
            match insertRow s link with
            | some s' => some (.created link, s', [.query c, .insert c])
            | none => some (.internalError, s, [.query c, .insert c])
      | none => autoCreate s attempts now url

/-! ## GET /[code] (redirect) -/

/-- Outcome of the redirect handler, by response: 302 / 400 / 404 / 500. -/
inductive RedirectResult where
  | redirect (targetUrl : String)
  | badRequest
  | notFound
  | internalError
deriving Repr, DecidableEq

/-- `GET /[code]` from `app/[code]/route.ts`: reject an empty code (400);
`findUnique` — absent gives 404; then the single atomic
`prisma.link.update` with `totalClicks: { increment: 1 }` and
`lastClickedAt: new Date()`; a failed update surfaces through the
catch-all as a 500; on success, 302 to the stored `targetUrl`. -/
def redirectGet (s : Store) (code : String) (now : Nat) :
    RedirectResult × Store × List StoreOp :=
  if code = "" then (.badRequest, s, [])
  else
    match findUnique s code with
    | none => (.notFound, s, [.query code])
    | some link =>
      match updateRow s code now with
      | some s' => (.redirect link.targetUrl, s', [.query code, .update code])
      | none => (.internalError, s, [.query code, .update code])

/-! ## GET /api/links/[code] (stats) and DELETE /api/links/[code] -/

/-- Outcome of the stats handler: 200 with the serialized link, 400, 404. -/
inductive GetResult where
  | stats (link : Link)
  | badRequest
  | notFound
deriving Repr, DecidableEq

/-- `GET /api/links/[code]` from `app/api/links/[code]/route.ts`:
read-only lookup of one code. -/
def getHandler (s : Store) (code : String) : GetResult :=
  if code = "" then .badRequest
  else
    match findUnique s code with
    | none => .notFound
    | some link => .stats link

/-- Outcome of the delete handler, by response: 200 / 400 / 404 / 500. -/
inductive DeleteResult where
  | ok
  | badRequest
  | notFound
  | internalError
deriving Repr, DecidableEq

/-- `DELETE /api/links/[code]` from `app/api/links/[code]/route.ts`:
reject an empty code (400); `findUnique` — absent gives 404; then
`prisma.link.delete`; a failed delete surfaces through the catch-all as
a 500. -/
def deleteHandler (s : Store) (code : String) :
    DeleteResult × Store × List StoreOp :=
  if code = "" then (.badRequest, s, [])
  else
    match findUnique s code with
    | none => (.notFound, s, [.query code])
    | some _ =>
      match deleteRow s code with
      | some s' => (.ok, s', [.query code, .delete code])
      | none => (.internalError, s, [.query code, .delete code])

/-! ## GET /api/links (list) -/

/-- The `orderBy: { createdAt: 'desc' }` relation: newest first. -/
def byCreatedDesc (a b : Link) : Prop := b.createdAt ≤ a.createdAt

instance : DecidableRel byCreatedDesc := fun a b =>
  inferInstanceAs (Decidable (b.createdAt ≤ a.createdAt))

instance : IsTotal Link byCreatedDesc :=
  ⟨fun a b => Nat.le_total b.createdAt a.createdAt⟩

instance : IsTrans Link byCreatedDesc :=
  ⟨fun _ _ _ h h' => Nat.le_trans h' h⟩

/-- `GET /api/links` from `app/api/links/route.ts`:
`prisma.link.findMany({ orderBy: { createdAt: 'desc' } })` — the full
table, sorted by `createdAt` descending (the store's ordered scan,
modelled as a stable sort). -/
def listLinks (s : Store) : List Link :=
  List.insertionSort byCreatedDesc s

/-! ## Derived execution shapes used by the verified properties -/

/-- Store operations that mutate the store (everything but a `query`). -/
def isMutation : StoreOp → Bool
  | .query _ => false
  | _ => true

/-- Whether the trace contains the given operation. -/
def containsOp (tr : List StoreOp) (op : StoreOp) : Bool :=
  tr.any fun x => decide (x = op)

/-- `true` when the trace performs a read of the code's existence
(`query c`) strictly before a separate `insert c` — the
"check-then-insert" access pattern. -/
def hasCheckThenInsert : List StoreOp → String → Bool
  | [], _ => false
  | op :: rest, c =>
    (decide (op = StoreOp.query c) && containsOp rest (StoreOp.insert c))
      || hasCheckThenInsert rest c

/-- A serialization of M concurrent redirect-path increments on one code:
each redirect handler's sole store mutation is its single atomic
`updateRow`, so a concurrent run of M handlers commits as a sequence of
M `updateRow`s, one per handler, in commit order `ts`. -/
def applyIncrements (s : Store) (code : String) : List Nat → Option Store
  | [] => some s
  | t :: ts =>
    match updateRow s code t with
    | some s' => applyIncrements s' code ts
    | none => none

/-- N sequential runs of the full redirect handler on one code, at the
call times `ts`. -/
def runRedirects (s : Store) (code : String) : List Nat → Store
  | [] => s
  | t :: ts => runRedirects (redirectGet s code t).2.1 code ts

/-- The redirect handler of `app/[code]/route.ts` when a concurrent
`DELETE /api/links/[code]` for the same code commits between the
handler's `findUnique` and its `update`: the redirect handler's own
steps are exactly those of `redirectGet`; the store its `update` sees is
the one the delete left behind. -/
def redirectGetInterleavedDelete (s : Store) (code : String) (now : Nat) :
    RedirectResult × Store × List StoreOp :=
  if code = "" then (.badRequest, s, [])
  else
    match findUnique s code with
    | none => (.notFound, s, [.query code])
    | some link =>
      let s1 := (deleteHandler s code).2.1
      match updateRow s1 code now with
      | some s' => (.redirect link.targetUrl, s', [.query code, .update code])
      | none => (.internalError, s1, [.query code, .update code])

/-- A registry operation, as invoked by a caller at some time. -/
inductive RegOp where
  | create (input : CreateInput) (attempts : List (Fin 6 → Fin 62))
  | redirect (code : String)
  | del (code : String)
  | stats (code : String)

/-- The store after one handler call at time `now` (the stats handler is
read-only; a create whose random tape ran out is the modelling artifact
and leaves the store as-is). -/
def applyOp (s : Store) (now : Nat) : RegOp → Store
  | .create input attempts =>
    match post s attempts now input with
    | some r => r.2.1
    | none => s
  | .redirect code => (redirectGet s code now).2.1
  | .del code => (deleteHandler s code).2.1
  | .stats _ => s

/-- Run a trace of timestamped registry operations from a store. -/
def run (s : Store) : List (Nat × RegOp) → Store
  | [] => s
  | (now, op) :: rest => run (applyOp s now op) rest

/-- The per-row invariant: `lastClickedAt`, when present, is ≥
`createdAt`. -/
def linkInvB (l : Link) : Bool :=
  match l.lastClickedAt with
  | none => true
  | some t => decide (l.createdAt ≤ t)

/-- The call times of a trace are nondecreasing and start no earlier
than `now` (wall-clock time does not run backwards). -/
def timesMonoFrom (now : Nat) : List (Nat × RegOp) → Bool
  | [] => true
  | a :: rest => decide (now ≤ a.1) && timesMonoFrom a.1 rest

/-! ## Store-primitive lemmas -/

theorem clickUpdate_code (l : Link) (t : Nat) : (clickUpdate l t).code = l.code := rfl

theorem findUnique_mem {s : Store} {c : String} {l : Link}
    (h : findUnique s c = some l) : l ∈ s ∧ l.code = c := by
  induction s with
  | nil => simp [findUnique] at h
  | cons l0 rest ih =>
    by_cases hc : l0.code = c
    · simp [findUnique, hc] at h
      exact ⟨by simp [← h], by rw [← h]; exact hc⟩
    · simp [findUnique, hc] at h
      rcases ih h with ⟨hmem, hcode⟩
      exact ⟨List.mem_cons_of_mem _ hmem, hcode⟩

theorem findUnique_eq_none {s : Store} {c : String}
    (h : c ∉ s.map Link.code) : findUnique s c = none := by
  induction s with
  | nil => rfl
  | cons l0 rest ih =>
    simp only [List.map_cons, List.mem_cons, not_or] at h
    have hc : ¬l0.code = c := fun hc => h.1 hc.symm
    simp [findUnique, hc, ih h.2]

theorem updateRow_some {s : Store} {c : String} {l : Link} (t : Nat)
    (h : findUnique s c = some l) :
    ∃ s', updateRow s c t = some s' ∧ findUnique s' c = some (clickUpdate l t) := by
  induction s with
  | nil => simp [findUnique] at h
  | cons l0 rest ih =>
    by_cases hc : l0.code = c
    · simp only [findUnique, if_pos hc, Option.some.injEq] at h
      subst h
      exact ⟨clickUpdate l0 t :: rest, by simp [updateRow, hc],
        by simp [findUnique, clickUpdate_code, hc]⟩
    · simp only [findUnique, if_neg hc] at h
      rcases ih h with ⟨rest', hu, hf⟩
      exact ⟨l0 :: rest', by simp [updateRow, hc, hu], by simp [findUnique, hc, hf]⟩

theorem updateRow_none {s : Store} {c : String} (t : Nat)
    (h : findUnique s c = none) : updateRow s c t = none := by
  induction s with
  | nil => rfl
  | cons l0 rest ih =>
    by_cases hc : l0.code = c
    · simp [findUnique, hc] at h
    · simp only [findUnique, if_neg hc] at h
      simp [updateRow, hc, ih h]

theorem updateRow_mem {s s' : Store} {c : String} {t : Nat}
    (h : updateRow s c t = some s') :
    ∀ x ∈ s', x ∈ s ∨ ∃ l ∈ s, x = clickUpdate l t := by
  induction s generalizing s' with
  | nil => simp [updateRow] at h
  | cons l0 rest ih =>
    by_cases hc : l0.code = c
    · simp only [updateRow, if_pos hc, Option.some.injEq] at h
      subst h
      intro x hx
      rcases List.mem_cons.1 hx with hx | hx
      · exact Or.inr ⟨l0, List.mem_cons_self _ _, hx⟩
      · exact Or.inl (List.mem_cons_of_mem _ hx)
    · simp only [updateRow, if_neg hc] at h
      cases hrec : updateRow rest c t with
      | none => rw [hrec] at h; simp at h
      | some rest' =>
        rw [hrec] at h
        simp only [Option.some.injEq] at h
        subst h
        intro x hx
        rcases List.mem_cons.1 hx with hx | hx
        · exact Or.inl (by simp [hx])
        · rcases ih hrec x hx with h' | ⟨l, hl, hx'⟩
          · exact Or.inl (List.mem_cons_of_mem _ h')
          · exact Or.inr ⟨l, List.mem_cons_of_mem _ hl, hx'⟩

theorem deleteRow_some {s : Store} {c : String} {l : Link}
    (h : findUnique s c = some l) : ∃ s', deleteRow s c = some s' := by
  induction s with
  | nil => simp [findUnique] at h
  | cons l0 rest ih =>
    by_cases hc : l0.code = c
    · exact ⟨rest, by simp [deleteRow, hc]⟩
    · simp only [findUnique, if_neg hc] at h
      rcases ih h with ⟨rest', hd⟩
      exact ⟨l0 :: rest', by simp [deleteRow, hc, hd]⟩

theorem deleteRow_mem {s s' : Store} {c : String}
    (h : deleteRow s c = some s') : ∀ x ∈ s', x ∈ s := by
  induction s generalizing s' with
  | nil => simp [deleteRow] at h
  | cons l0 rest ih =>
    by_cases hc : l0.code = c
    · simp only [deleteRow, if_pos hc, Option.some.injEq] at h
      subst h
      exact fun x hx => List.mem_cons_of_mem _ hx
    · simp only [deleteRow, if_neg hc] at h
      cases hrec : deleteRow rest c with
      | none => rw [hrec] at h; simp at h
      | some rest' =>
        rw [hrec] at h
        simp only [Option.some.injEq] at h
        subst h
        intro x hx
        rcases List.mem_cons.1 hx with hx | hx
        · simp [hx]
        · exact List.mem_cons_of_mem _ (ih hrec x hx)

theorem deleteRow_find_none {s s' : Store} {c : String}
    (hnd : (s.map Link.code).Nodup) (h : deleteRow s c = some s') :
    findUnique s' c = none := by
  induction s generalizing s' with
  | nil => simp [deleteRow] at h
  | cons l0 rest ih =>
    simp only [List.map_cons, List.nodup_cons] at hnd
    by_cases hc : l0.code = c
    · simp only [deleteRow, if_pos hc, Option.some.injEq] at h
      subst h
      exact findUnique_eq_none (by rw [← hc]; exact hnd.1)
    · simp only [deleteRow, if_neg hc] at h
      cases hrec : deleteRow rest c with
      | none => rw [hrec] at h; simp at h
      | some rest' =>
        rw [hrec] at h
        simp only [Option.some.injEq] at h
        subst h
        simp [findUnique, hc, ih hnd.2 hrec]

/-! ## Click-accounting lemmas -/

theorem foldl_clickUpdate_totalClicks (ts : List Nat) (l : Link) :
    (ts.foldl clickUpdate l).totalClicks = l.totalClicks + ts.length := by
  induction ts generalizing l with
  | nil => simp
  | cons t ts ih =>
    simp only [List.foldl_cons, ih, List.length_cons, clickUpdate]
    omega

theorem foldl_clickUpdate_lastClickedAt (ts : List Nat) (l : Link) (h : ts ≠ []) :
    (ts.foldl clickUpdate l).lastClickedAt = some (ts.getLast h) := by
  induction ts generalizing l with
  | nil => exact absurd rfl h
  | cons t ts ih =>
    cases ts with
    | nil => simp [clickUpdate]
    | cons t' ts' =>
      rw [List.foldl_cons, ih (clickUpdate l t) (by simp)]
      simp [List.getLast_cons]

theorem applyIncrements_spec {s : Store} {c : String} {l : Link} (ts : List Nat)
    (h : findUnique s c = some l) :
    ∃ s', applyIncrements s c ts = some s'
      ∧ findUnique s' c = some (ts.foldl clickUpdate l) := by
  induction ts generalizing s l with
  | nil => exact ⟨s, rfl, by simpa using h⟩
  | cons t ts ih =>
    rcases updateRow_some t h with ⟨s1, hu, hf⟩
    rcases ih hf with ⟨s', ha, hf'⟩
    exact ⟨s', by simp [applyIncrements, hu, ha], by simpa using hf'⟩

theorem redirectGet_store {s : Store} {c : String} {l : Link} (t : Nat)
    (hc : c ≠ "") (h : findUnique s c = some l) :
    ∃ s', updateRow s c t = some s'
      ∧ redirectGet s c t = (.redirect l.targetUrl, s', [.query c, .update c]) := by
  rcases updateRow_some t h with ⟨s', hu, _⟩
  exact ⟨s', hu, by simp [redirectGet, hc, h, hu]⟩

theorem runRedirects_spec {s : Store} {c : String} {l : Link} (ts : List Nat)
    (hc : c ≠ "") (h : findUnique s c = some l) :
    findUnique (runRedirects s c ts) c = some (ts.foldl clickUpdate l) := by
  induction ts generalizing s l with
  | nil => simpa [runRedirects] using h
  | cons t ts ih =>
    rcases updateRow_some t h with ⟨s1, hu, hf⟩
    have hred : (redirectGet s c t).2.1 = s1 := by simp [redirectGet, hc, h, hu]
    rw [runRedirects, hred, List.foldl_cons]
    exact ih hf

/-! ## Code-generation lemmas -/

theorem charsList_all_code : ∀ c ∈ charsList, isCodeChar c = true := by decide

theorem matchesCode6_randomCode (draw : Fin 6 → Fin 62) :
    matchesCode6 (randomCode draw) = true := by
  have hdata : (randomCode draw).toList
      = (List.finRange 6).map fun i =>
          charsList.get (Fin.cast (by decide : (62 : Nat) = charsList.length) (draw i)) := rfl
  have hlen : (randomCode draw).length = 6 := by
    show (randomCode draw).toList.length = 6
    rw [hdata]
    simp
  have hall : ∀ x ∈ (randomCode draw).toList, isCodeChar x = true := by
    rw [hdata]
    intro x hx
    rcases List.mem_map.1 hx with ⟨i, _, hi⟩
    rw [← hi]
    exact charsList_all_code _ (List.get_mem _ _ _)
  unfold matchesCode6
  rw [hlen]
  simp only [decide_True, Bool.true_and, List.all_eq_true]
  exact fun x hx => hall x hx

theorem generateUniqueCode_spec {s : Store} {attempts : List (Fin 6 → Fin 62)}
    {c : String} {tr : List StoreOp}
    (h : generateUniqueCode s attempts = some (c, tr)) :
    findUnique s c = none ∧ matchesCode6 c = true
      ∧ containsOp tr (StoreOp.query c) = true := by
  induction attempts generalizing c tr with
  | nil => simp [generateUniqueCode] at h
  | cons draw rest ih =>
    rw [generateUniqueCode] at h
    cases hf : findUnique s (randomCode draw) with
    | none =>
      rw [hf] at h
      simp only [Option.some.injEq, Prod.mk.injEq] at h
      rcases h with ⟨hc, htr⟩
      subst hc
      subst htr
      exact ⟨hf, matchesCode6_randomCode draw, by simp [containsOp]⟩
    | some l0 =>
      rw [hf] at h
      cases hrec : generateUniqueCode s rest with
      | none => rw [hrec] at h; simp at h
      | some p =>
        rcases p with ⟨c', tr'⟩
        rw [hrec] at h
        simp only [Option.some.injEq, Prod.mk.injEq] at h
        rcases h with ⟨hc, htr⟩
        subst hc
        subst htr
        rcases ih hrec with ⟨h1, h2, h3⟩
        refine ⟨h1, h2, ?_⟩
        simp only [containsOp, List.any_cons, Bool.or_eq_true] at h3 ⊢
        exact Or.inr h3

/-! ## Create-path lemmas -/

theorem insertRow_eq {s s' : Store} {l : Link}
    (h : insertRow s l = some s') : s' = s ++ [l] := by
  unfold insertRow at h
  cases hf : findUnique s l.code with
  | some _ => rw [hf] at h; simp at h
  | none => rw [hf] at h; simpa using h.symm

theorem autoCreate_spec {s : Store} {attempts : List (Fin 6 → Fin 62)} {now : Nat}
    {url c : String} {tr : List StoreOp}
    (hgen : generateUniqueCode s attempts = some (c, tr)) :
    autoCreate s attempts now url
      = some (.created (mkLink c url now), s ++ [mkLink c url now],
          tr ++ [.insert c]) := by
  have hnone := (generateUniqueCode_spec hgen).1
  have hins : insertRow s (mkLink c url now) = some (s ++ [mkLink c url now]) := by
    simp [insertRow, mkLink, hnone]
  simp [autoCreate, hgen, hins]

theorem post_absent_code {s : Store} {attempts : List (Fin 6 → Fin 62)} {now : Nat}
    {url : String} (hurl : isValidUrl url = true) (hne : url ≠ "") :
    post s attempts now ⟨some url, none⟩ = autoCreate s attempts now url := by
  simp [post, hurl, hne]

theorem post_empty_code {s : Store} {attempts : List (Fin 6 → Fin 62)} {now : Nat}
    {url : String} (hurl : isValidUrl url = true) (hne : url ≠ "") :
    post s attempts now ⟨some url, some ""⟩ = autoCreate s attempts now url := by
  simp [post, hurl, hne]

theorem post_custom_fresh {s : Store} {attempts : List (Fin 6 → Fin 62)} {now : Nat}
    {url c : String} (hurl : isValidUrl url = true) (hne : url ≠ "")
    (hcne : c ≠ "") (hreg : codeRegexTest c = true)
    (hfind : findUnique s c = none) :
    post s attempts now ⟨some url, some c⟩
      = some (.created (mkLink c url now), s ++ [mkLink c url now],
          [.query c, .insert c]) := by
  have hins : insertRow s (mkLink c url now) = some (s ++ [mkLink c url now]) := by
    simp [insertRow, mkLink, hfind]
  simp [post, hurl, hne, hcne, hreg, hfind, hins]

theorem autoCreate_store {s : Store} {attempts : List (Fin 6 → Fin 62)} {now : Nat}
    {url : String} {r : CreateResult × Store × List StoreOp}
    (h : autoCreate s attempts now url = some r) :
    r.2.1 = s ∨ ∃ c u, r.2.1 = s ++ [mkLink c u now] := by
  unfold autoCreate at h
  cases hg : generateUniqueCode s attempts with
  | none => rw [hg] at h; simp at h
  | some p =>
    rcases p with ⟨c, tr⟩
    rw [hg] at h
    simp only at h
    cases hi : insertRow s (mkLink c url now) with
    | some s2 =>
      rw [hi] at h
      simp only [Option.some.injEq] at h
      subst h
      exact Or.inr ⟨c, url, by simpa using insertRow_eq hi⟩
    | none =>
      rw [hi] at h
      simp only [Option.some.injEq] at h
      subst h
      exact Or.inl rfl

theorem post_store {s : Store} {attempts : List (Fin 6 → Fin 62)} {now : Nat}
    {input : CreateInput} {r : CreateResult × Store × List StoreOp}
    (h : post s attempts now input = some r) :
    r.2.1 = s ∨ ∃ c u, r.2.1 = s ++ [mkLink c u now] := by
  rcases input with ⟨tu, oc⟩
  cases tu with
  | none =>
    simp only [post, Option.some.injEq] at h
    subst h
    exact Or.inl rfl
  | some url =>
    simp only [post] at h
    by_cases hcond : (decide (url = "") || !isValidUrl url) = true
    · rw [if_pos hcond] at h
      simp only [Option.some.injEq] at h
      subst h
      exact Or.inl rfl
    · rw [if_neg hcond] at h
      cases oc with
      | none => exact autoCreate_store h
      | some c =>
        simp only at h
        by_cases hce : c = ""
        · rw [if_pos hce] at h
          exact autoCreate_store h
        · rw [if_neg hce] at h
          by_cases hreg : (!codeRegexTest c) = true
          · rw [if_pos hreg] at h
            simp only [Option.some.injEq] at h
            subst h
            exact Or.inl rfl
          · rw [if_neg hreg] at h
            cases hf : findUnique s c with
            | some l0 =>
              rw [hf] at h
              simp only [Option.some.injEq] at h
              subst h
              exact Or.inl rfl
            | none =>
              rw [hf] at h
              simp only at h
              cases hi : insertRow s (mkLink c url now) with
              | some s2 =>
                rw [hi] at h
                simp only [Option.some.injEq] at h
                subst h
                exact Or.inr ⟨c, url, by simpa using insertRow_eq hi⟩
              | none =>
                rw [hi] at h
                simp only [Option.some.injEq] at h
                subst h
                exact Or.inl rfl

/-! ## Store-shape lemmas for the handlers -/

theorem redirectGet_store_shape (s : Store) (code : String) (now : Nat) :
    (redirectGet s code now).2.1 = s
      ∨ updateRow s code now = some (redirectGet s code now).2.1 := by
  unfold redirectGet
  by_cases hc : code = ""
  · simp [hc]
  · rw [if_neg hc]
    cases hf : findUnique s code with
    | none => simp
    | some l =>
      cases hu : updateRow s code now with
      | some s' => simp [hu]
      | none => simp [hu]

theorem deleteHandler_store_shape (s : Store) (code : String) :
    (deleteHandler s code).2.1 = s
      ∨ deleteRow s code = some (deleteHandler s code).2.1 := by
  unfold deleteHandler
  by_cases hc : code = ""
  · simp [hc]
  · rw [if_neg hc]
    cases hf : findUnique s code with
    | none => simp
    | some l =>
      cases hd : deleteRow s code with
      | some s' => simp [hd]
      | none => simp [hd]

theorem hasCheckThenInsert_append {tr : List StoreOp} {c : String}
    (h : containsOp tr (StoreOp.query c) = true) :
    hasCheckThenInsert (tr ++ [StoreOp.insert c]) c = true := by
  induction tr with
  | nil => simp [containsOp] at h
  | cons op rest ih =>
    simp only [containsOp, List.any_cons, Bool.or_eq_true, decide_eq_true_eq] at h
    rcases h with h | h
    · subst h
      simp [hasCheckThenInsert, containsOp]
    · simp only [List.cons_append, hasCheckThenInsert, Bool.or_eq_true]
      exact Or.inr (ih h)

theorem autoCreate_created {s : Store} {attempts : List (Fin 6 → Fin 62)}
    {now : Nat} {url : String} {l : Link} {s' : Store} {tr : List StoreOp}
    (h : autoCreate s attempts now url = some (.created l, s', tr)) :
    hasCheckThenInsert tr l.code = true := by
  unfold autoCreate at h
  cases hg : generateUniqueCode s attempts with
  | none => rw [hg] at h; simp at h
  | some p =>
    rcases p with ⟨c, trg⟩
    rw [hg] at h
    simp only at h
    cases hi : insertRow s (mkLink c url now) with
    | some s2 =>
      rw [hi] at h
      simp only [Option.some.injEq, Prod.mk.injEq, CreateResult.created.injEq] at h
      rcases h with ⟨hl, _, htr⟩
      subst hl
      subst htr
      exact hasCheckThenInsert_append (generateUniqueCode_spec hg).2.2
    | none => rw [hi] at h; simp at h

/-! ## Claim theorems -/

/-- **C1 (counterexample).** The claim says the registry never performs a
check-then-insert sequence (a read of the code's existence followed by a
separate write).  But a successful custom-code `Create` issues exactly
the trace `[findUnique "abc123", insert "abc123"]` — a read of the
code's existence followed by a separate insert. -/
theorem create_check_then_insert_counterexample :
    (post [] [] 7 ⟨some "https://example.com", some "abc123"⟩).map (fun r => r.2.2)
      = some [StoreOp.query "abc123", StoreOp.insert "abc123"]
    ∧ hasCheckThenInsert [StoreOp.query "abc123", StoreOp.insert "abc123"]
        "abc123" = true := by
  decide

/-- **C1 (amended).** Every successful `Create` — custom-code or
auto-generated — performs a check-then-insert sequence: its store trace
contains a `findUnique` query of the created code strictly before the
separate insert of that code.  (Uniqueness still holds sequentially, but
it is maintained by this registry-level pre-check, not by relying on the
store's atomic unique insert.) -/
theorem create_performs_check_then_insert (s : Store)
    (attempts : List (Fin 6 → Fin 62)) (now : Nat) (input : CreateInput)
    (l : Link) (s' : Store) (tr : List StoreOp)
    (h : post s attempts now input = some (.created l, s', tr)) :
    hasCheckThenInsert tr l.code = true := by
  rcases input with ⟨tu, oc⟩
  cases tu with
  | none => simp [post] at h
  | some url =>
    simp only [post] at h
    by_cases hcond : (decide (url = "") || !isValidUrl url) = true
    · rw [if_pos hcond] at h
      simp at h
    · rw [if_neg hcond] at h
      cases oc with
      | none => exact autoCreate_created h
      | some c =>
        simp only at h
        by_cases hce : c = ""
        · rw [if_pos hce] at h
          exact autoCreate_created h
        · rw [if_neg hce] at h
          by_cases hreg : (!codeRegexTest c) = true
          · rw [if_pos hreg] at h
            simp at h
          · rw [if_neg hreg] at h
            cases hf : findUnique s c with
            | some l0 => rw [hf] at h; simp at h
            | none =>
              rw [hf] at h
              simp only at h
              cases hi : insertRow s (mkLink c url now) with
              | some s2 =>
                rw [hi] at h
                simp only [Option.some.injEq, Prod.mk.injEq,
                  CreateResult.created.injEq] at h
                rcases h with ⟨hl, _, htr⟩
                subst hl
                subst htr
                simp [hasCheckThenInsert, containsOp, mkLink]
              | none => rw [hi] at h; simp at h

/-- Witness for **C1 (amended)** at a concrete input: creating
`"abc123"` in the empty registry performs check-then-insert. -/
theorem create_performs_check_then_insert_witness :
    hasCheckThenInsert [StoreOp.query "abc123", StoreOp.insert "abc123"]
      "abc123" = true :=
  create_performs_check_then_insert [] [] 7
    ⟨some "https://example.com", some "abc123"⟩
    (mkLink "abc123" "https://example.com" 7)
    [mkLink "abc123" "https://example.com" 7]
    [StoreOp.query "abc123", StoreOp.insert "abc123"] (by decide)

/-- **C3.** For every syntactically valid absolute http/https `targetUrl`,
absent `optionalCode`, and any random tape on which the generation loop
returns, `Create` succeeds (201) with a `Link` whose code matches
`^[A-Za-z0-9]{6}$`, was not already present in the registry at creation
time, and has `totalClicks = 0` and `lastClickedAt = null`. -/
theorem create_auto_fresh_code (s : Store) (attempts : List (Fin 6 → Fin 62))
    (now : Nat) (url c : String) (tr : List StoreOp)
    (hurl : isValidUrl url = true) (hne : url ≠ "")
    (hgen : generateUniqueCode s attempts = some (c, tr)) :
    post s attempts now ⟨some url, none⟩
      = some (.created (mkLink c url now), s ++ [mkLink c url now],
          tr ++ [.insert c])
    ∧ matchesCode6 c = true
    ∧ findUnique s c = none
    ∧ (mkLink c url now).totalClicks = 0
    ∧ (mkLink c url now).lastClickedAt = none := by
  rcases generateUniqueCode_spec hgen with ⟨hfind, hmatch, _⟩
  exact ⟨(post_absent_code hurl hne).trans (autoCreate_spec hgen),
    hmatch, hfind, rfl, rfl⟩

/-- Witness for **C3**: in the empty registry, with a tape drawing index 0
six times, the generated code is `"AAAAAA"`. -/
theorem create_auto_fresh_code_witness :
    post [] [fun _ => (0 : Fin 62)] 7 ⟨some "https://example.com", none⟩
      = some (CreateResult.created (mkLink "AAAAAA" "https://example.com" 7),
          [mkLink "AAAAAA" "https://example.com" 7],
          [StoreOp.query "AAAAAA", StoreOp.insert "AAAAAA"])
    ∧ matchesCode6 "AAAAAA" = true := by
  have h := create_auto_fresh_code [] [fun _ => (0 : Fin 62)] 7
    "https://example.com" "AAAAAA" [StoreOp.query "AAAAAA"]
    (by decide) (by decide) (by decide)
  exact ⟨h.1, h.2.1⟩

/-- **C10.** Supplying `optionalCode = ""` is treated exactly as if the
code were absent (JavaScript's `if (code)` is false for the empty
string): `Create` does not fail with `InvalidCode` but auto-generates a
fresh 6-character code and succeeds. -/
theorem create_empty_code_treated_as_absent (s : Store)
    (attempts : List (Fin 6 → Fin 62)) (now : Nat) (url : String)
    (hurl : isValidUrl url = true) (hne : url ≠ "") :
    post s attempts now ⟨some url, some ""⟩ = post s attempts now ⟨some url, none⟩
    ∧ ∀ c tr, generateUniqueCode s attempts = some (c, tr) →
        post s attempts now ⟨some url, some ""⟩
          = some (.created (mkLink c url now), s ++ [mkLink c url now],
              tr ++ [.insert c])
        ∧ matchesCode6 c = true := by
  refine ⟨(post_empty_code hurl hne).trans (post_absent_code hurl hne).symm, ?_⟩
  intro c tr hgen
  exact ⟨(post_empty_code hurl hne).trans (autoCreate_spec hgen),
    (generateUniqueCode_spec hgen).2.1⟩

/-- Witness for **C10** at a concrete input. -/
theorem create_empty_code_treated_as_absent_witness :
    post [] [fun _ => (0 : Fin 62)] 7 ⟨some "https://example.com", some ""⟩
      = post [] [fun _ => (0 : Fin 62)] 7 ⟨some "https://example.com", none⟩
    ∧ post [] [fun _ => (0 : Fin 62)] 7 ⟨some "https://example.com", some ""⟩
        = some (CreateResult.created (mkLink "AAAAAA" "https://example.com" 7),
            [mkLink "AAAAAA" "https://example.com" 7],
            [StoreOp.query "AAAAAA", StoreOp.insert "AAAAAA"]) := by
  have h := create_empty_code_treated_as_absent [] [fun _ => (0 : Fin 62)] 7
    "https://example.com" (by decide) (by decide)
  exact ⟨h.1, (h.2 "AAAAAA" [StoreOp.query "AAAAAA"] (by decide)).1⟩

/-- **C6 (counterexample).** The claim says `Create` fails with
`InvalidCode` for *every* supplied `optionalCode` not matching
`^[A-Za-z0-9]{6,8}$`.  The empty string is supplied and does not match,
yet `Create` succeeds and auto-generates a code. -/
theorem validation_counterexample_empty_code :
    codeRegexTest "" = false
    ∧ (post [] [fun _ => (0 : Fin 62)] 7
          ⟨some "https://example.com", some ""⟩).map (fun r => r.1)
        = some (CreateResult.created (mkLink "AAAAAA" "https://example.com" 7)) := by
  decide

/-- **C6 (amended).** `Create` fails with `InvalidTarget` whenever
`targetUrl` is missing, empty, or not an absolute http/https URL, and
with `InvalidCode` whenever a supplied *non-empty* `optionalCode` does
not match `^[A-Za-z0-9]{6,8}$`; in both cases the store-operation trace
is empty — validation errors are detected and reported before any store
access occurs. -/
theorem validation_errors_before_store (s : Store)
    (attempts : List (Fin 6 → Fin 62)) (now : Nat) (input : CreateInput) :
    ((input.targetUrl = none
        ∨ ∃ u, input.targetUrl = some u ∧ (u = "" ∨ isValidUrl u = false)) →
      post s attempts now input = some (.invalidTarget, s, []))
    ∧ (∀ u c, input.targetUrl = some u → isValidUrl u = true → u ≠ "" →
        input.code = some c → c ≠ "" → codeRegexTest c = false →
        post s attempts now input = some (.invalidCode, s, [])) := by
  constructor
  · rintro (h | ⟨u, hu, hbad⟩)
    · rcases input with ⟨tu, oc⟩
      simp only at h
      subst h
      rfl
    · rcases input with ⟨tu, oc⟩
      simp only at hu
      subst hu
      rcases hbad with hbad | hbad
      · subst hbad
        simp [post]
      · simp [post, hbad]
  · intro u c htu hval hne hoc hcne hreg
    rcases input with ⟨tu, oc⟩
    simp only at htu hoc
    subst htu
    subst hoc
    simp [post, hval, hne, hcne, hreg]

/-- Witness for **C6 (amended)**: an `ftp` URL is rejected as
`InvalidTarget`; a too-short custom code is rejected as `InvalidCode`;
neither run touches the store. -/
theorem validation_errors_before_store_witness :
    post [] [] 7 ⟨some "ftp://example.com", none⟩
      = some (CreateResult.invalidTarget, [], [])
    ∧ post [] [] 7 ⟨some "https://example.com", some "abc"⟩
        = some (CreateResult.invalidCode, [], []) := by
  constructor
  · exact (validation_errors_before_store [] [] 7
        ⟨some "ftp://example.com", none⟩).1
      (Or.inr ⟨"ftp://example.com", rfl, Or.inr (by decide)⟩)
  · exact (validation_errors_before_store [] [] 7
        ⟨some "https://example.com", some "abc"⟩).2
      "https://example.com" "abc" rfl (by decide) (by decide) rfl
      (by decide) (by decide)

/-- **C2.** The redirect handler's only store mutation is the single
atomic increment-and-set `update` (its mutation trace is exactly
`[update c]`, never a read-then-write of the counter), so M concurrent
`IncrementClick`s on one code commit as some sequence of M atomic
updates — and every such sequence yields `totalClicks = M` exactly, with
no lost updates. -/
theorem concurrent_increments_exact (s : Store) (c : String) (l : Link)
    (ts : List Nat) (t : Nat) (hc : c ≠ "")
    (h : findUnique s c = some l) (h0 : l.totalClicks = 0) :
    ((redirectGet s c t).2.2).filter isMutation = [StoreOp.update c]
    ∧ ∃ s' l', applyIncrements s c ts = some s'
        ∧ findUnique s' c = some l' ∧ l'.totalClicks = ts.length := by
  constructor
  · rcases redirectGet_store t hc h with ⟨s1, _, hred⟩
    rw [hred]
    simp [isMutation]
  · rcases applyIncrements_spec ts h with ⟨s', ha, hf⟩
    exact ⟨s', ts.foldl clickUpdate l, ha, hf,
      by rw [foldl_clickUpdate_totalClicks, h0, Nat.zero_add]⟩

/-- Witness for **C2**: three increments on `"abc123"` commit at times
3, 5, 9 and the final count is exactly 3. -/
theorem concurrent_increments_exact_witness :
    ((redirectGet [mkLink "abc123" "https://example.com" 0] "abc123" 3).2.2).filter
        isMutation = [StoreOp.update "abc123"]
    ∧ ∃ s' l', applyIncrements [mkLink "abc123" "https://example.com" 0]
          "abc123" [3, 5, 9] = some s'
        ∧ findUnique s' "abc123" = some l'
        ∧ l'.totalClicks = [3, 5, 9].length :=
  concurrent_increments_exact [mkLink "abc123" "https://example.com" 0] "abc123"
    (mkLink "abc123" "https://example.com" 0) [3, 5, 9] 3
    (by decide) (by decide) (by decide)

/-- **C4.** `IncrementClick` called N ≥ 1 times sequentially on a code
present with `totalClicks = 0` yields `totalClicks = N` and
`lastClickedAt` equal to the time of the last call — each call counts
exactly one hit (the calls are not idempotent: each one changes the
count). -/
theorem sequential_increments (s : Store) (c : String) (l : Link)
    (ts : List Nat) (hc : c ≠ "") (h : findUnique s c = some l)
    (h0 : l.totalClicks = 0) (hne : ts ≠ []) :
    ∃ l', findUnique (runRedirects s c ts) c = some l'
      ∧ l'.totalClicks = ts.length
      ∧ l'.lastClickedAt = some (ts.getLast hne) := by
  refine ⟨ts.foldl clickUpdate l, runRedirects_spec ts hc h, ?_, ?_⟩
  · rw [foldl_clickUpdate_totalClicks, h0, Nat.zero_add]
  · exact foldl_clickUpdate_lastClickedAt ts l hne

/-- Witness for **C4**: two sequential redirects at times 4 and 9 give
`totalClicks = 2` and `lastClickedAt = 9`. -/
theorem sequential_increments_witness :
    ∃ l', findUnique (runRedirects [mkLink "abc123" "https://example.com" 0]
        "abc123" [4, 9]) "abc123" = some l'
      ∧ l'.totalClicks = 2 ∧ l'.lastClickedAt = some 9 :=
  sequential_increments [mkLink "abc123" "https://example.com" 0] "abc123"
    (mkLink "abc123" "https://example.com" 0) [4, 9]
    (by decide) (by decide) (by decide) (by decide)

/-- **C5 (counterexample).** The claim says that whenever the code is
absent at the time of the update, `IncrementClick` fails with
`NotFound`.  But when the code is deleted between the handler's
existence check and its update — so that it is absent at the time of
the update — the update's failure is caught by the handler's catch-all
and reported as an internal error (500), not `NotFound` (404). -/
theorem increment_missing_row_counterexample :
    findUnique ((deleteHandler [mkLink "abc123" "https://example.com" 0]
        "abc123").2.1) "abc123" = none
    ∧ (redirectGetInterleavedDelete [mkLink "abc123" "https://example.com" 0]
        "abc123" 5).1 = RedirectResult.internalError
    ∧ RedirectResult.internalError ≠ RedirectResult.notFound := by
  decide

/-- **C5 (amended).** If the code is absent when the redirect handler
runs its existence check, the handler fails with `NotFound` and the
registry is unchanged (no row is modified).  If instead the code is
deleted between the existence check and the update, the handler reports
an internal error — not `NotFound` — and still modifies no row (the
store is exactly what the delete left). -/
theorem increment_missing_row (s : Store) (c : String) (t : Nat)
    (hc : c ≠ "") (hnd : (s.map Link.code).Nodup) :
    (findUnique s c = none → redirectGet s c t = (.notFound, s, [.query c]))
    ∧ (∀ l, findUnique s c = some l →
        (redirectGetInterleavedDelete s c t).1 = .internalError
        ∧ (redirectGetInterleavedDelete s c t).2.1 = (deleteHandler s c).2.1) := by
  constructor
  · intro hf
    simp [redirectGet, hc, hf]
  · intro l hf
    rcases deleteRow_some hf with ⟨s1, hd⟩
    have hdh : (deleteHandler s c).2.1 = s1 := by
      simp [deleteHandler, hc, hf, hd]
    have hfn : findUnique s1 c = none := deleteRow_find_none hnd hd
    have hun : updateRow s1 c t = none := updateRow_none t hfn
    constructor
    · simp [redirectGetInterleavedDelete, hc, hf, hdh, hun]
    · simp [redirectGetInterleavedDelete, hc, hf, hdh, hun]

/-- Witness for **C5 (amended)** at concrete inputs: a redirect for a
code absent from the empty registry is a 404 leaving the store
untouched; a redirect racing a delete of `"abc123"` ends in the
internal-error branch. -/
theorem increment_missing_row_witness :
    redirectGet [] "abc123" 5
      = (RedirectResult.notFound, [], [StoreOp.query "abc123"])
    ∧ (redirectGetInterleavedDelete [mkLink "abc123" "https://example.com" 0]
        "abc123" 5).1 = RedirectResult.internalError := by
  constructor
  · exact (increment_missing_row [] "abc123" 5 (by decide) (by decide)).1 rfl
  · exact ((increment_missing_row [mkLink "abc123" "https://example.com" 0]
        "abc123" 5 (by decide) (by decide)).2
      (mkLink "abc123" "https://example.com" 0) (by decide)).1

/-- **C7.** For a code present in the registry: `Delete(code)` succeeds
and removes the row; `Get(code)` then yields `NotFound`; a subsequent
`Create` with that code as `optionalCode` succeeds (no tombstone — the
code is immediately reusable); and a second `Delete` yields `NotFound`
rather than a crash. -/
theorem delete_get_recreate (s : Store) (c url : String) (l : Link)
    (attempts : List (Fin 6 → Fin 62)) (now : Nat)
    (hnd : (s.map Link.code).Nodup) (h : findUnique s c = some l)
    (hreg : codeRegexTest c = true)
    (hurl : isValidUrl url = true) (hune : url ≠ "") :
    ∃ s1, deleteHandler s c = (.ok, s1, [.query c, .delete c])
      ∧ getHandler s1 c = .notFound
      ∧ post s1 attempts now ⟨some url, some c⟩
          = some (.created (mkLink c url now), s1 ++ [mkLink c url now],
              [.query c, .insert c])
      ∧ (deleteHandler s1 c).1 = .notFound := by
  have hc : c ≠ "" := fun hce => by
    subst hce
    exact absurd hreg (by decide)
  rcases deleteRow_some h with ⟨s1, hd⟩
  have hfn : findUnique s1 c = none := deleteRow_find_none hnd hd
  refine ⟨s1, ?_, ?_, ?_, ?_⟩
  · simp [deleteHandler, hc, h, hd]
  · simp [getHandler, hc, hfn]
  · exact post_custom_fresh hurl hune hc hreg hfn
  · simp [deleteHandler, hc, hfn]

/-- Witness for **C7** at a concrete one-row registry. -/
theorem delete_get_recreate_witness :
    ∃ s1, deleteHandler [mkLink "abc123" "https://old.example" 0] "abc123"
        = (DeleteResult.ok, s1, [StoreOp.query "abc123", StoreOp.delete "abc123"])
      ∧ getHandler s1 "abc123" = GetResult.notFound
      ∧ post s1 [] 7 ⟨some "https://example.com", some "abc123"⟩
          = some (CreateResult.created (mkLink "abc123" "https://example.com" 7),
              s1 ++ [mkLink "abc123" "https://example.com" 7],
              [StoreOp.query "abc123", StoreOp.insert "abc123"])
      ∧ (deleteHandler s1 "abc123").1 = DeleteResult.notFound :=
  delete_get_recreate [mkLink "abc123" "https://old.example" 0] "abc123"
    "https://example.com" (mkLink "abc123" "https://old.example" 0) [] 7
    (by decide) (by decide) (by decide) (by decide) (by decide)

theorem applyOp_inv {s : Store} {now : Nat} (op : RegOp)
    (hinv : ∀ l ∈ s, linkInvB l = true) (hbnd : ∀ l ∈ s, l.createdAt ≤ now) :
    (∀ l ∈ applyOp s now op, linkInvB l = true)
    ∧ (∀ l ∈ applyOp s now op, l.createdAt ≤ now) := by
  cases op with
  | create input attempts =>
    cases hp : post s attempts now input with
    | none =>
      simp only [applyOp, hp]
      exact ⟨hinv, hbnd⟩
    | some r =>
      simp only [applyOp, hp]
      rcases post_store hp with hs | ⟨c, u, hs⟩
      · rw [hs]
        exact ⟨hinv, hbnd⟩
      · rw [hs]
        constructor
        · intro l hl
          rcases List.mem_append.1 hl with hl | hl
          · exact hinv l hl
          · simp only [List.mem_singleton] at hl
            subst hl
            rfl
        · intro l hl
          rcases List.mem_append.1 hl with hl | hl
          · exact hbnd l hl
          · simp only [List.mem_singleton] at hl
            subst hl
            exact le_refl now
  | redirect code =>
    rcases redirectGet_store_shape s code now with hs | hu
    · simp only [applyOp]
      rw [hs]
      exact ⟨hinv, hbnd⟩
    · simp only [applyOp]
      constructor
      · intro l hl
        rcases updateRow_mem hu l hl with hl' | ⟨l0, hl0, heq⟩
        · exact hinv l hl'
        · subst heq
          simp only [linkInvB, clickUpdate]
          exact decide_eq_true (hbnd l0 hl0)
      · intro l hl
        rcases updateRow_mem hu l hl with hl' | ⟨l0, hl0, heq⟩
        · exact hbnd l hl'
        · subst heq
          exact hbnd l0 hl0
  | del code =>
    rcases deleteHandler_store_shape s code with hs | hd
    · simp only [applyOp]
      rw [hs]
      exact ⟨hinv, hbnd⟩
    · simp only [applyOp]
      exact ⟨fun l hl => hinv l (deleteRow_mem hd l hl),
        fun l hl => hbnd l (deleteRow_mem hd l hl)⟩
  | stats code => exact ⟨hinv, hbnd⟩

theorem run_inv {tr : List (Nat × RegOp)} {s : Store} {now : Nat}
    (hinv : ∀ l ∈ s, linkInvB l = true) (hbnd : ∀ l ∈ s, l.createdAt ≤ now)
    (hmono : timesMonoFrom now tr = true) :
    ∀ l ∈ run s tr, linkInvB l = true := by
  induction tr generalizing s now with
  | nil => simpa [run] using hinv
  | cons a rest ih =>
    rcases a with ⟨t, op⟩
    simp only [timesMonoFrom, Bool.and_eq_true, decide_eq_true_eq] at hmono
    have hbnd' : ∀ l ∈ s, l.createdAt ≤ t :=
      fun l hl => le_trans (hbnd l hl) hmono.1
    rcases applyOp_inv op hinv hbnd' with ⟨h1, h2⟩
    simpa [run] using ih h1 h2 hmono.2

/-- **C8.** In every registry state reachable from the empty store by a
trace of operations at nondecreasing wall-clock times, every link with
`lastClickedAt` present has `lastClickedAt ≥ createdAt`: `Create`
initializes `lastClickedAt` to `null` with `createdAt` = now, and the
redirect's update sets `lastClickedAt` to the current time, which is not
earlier than any row's creation time. -/
theorem lastClicked_ge_created_invariant (tr : List (Nat × RegOp))
    (h : timesMonoFrom 0 tr = true) :
    (run [] tr).all linkInvB = true := by
  rw [List.all_eq_true]
  intro l hl
  exact run_inv (by simp) (by simp) h l hl

/-- Witness for **C8**: create `"abc123"` at time 3, redirect through it
at times 5 and 9; the invariant holds in the final state. -/
theorem lastClicked_ge_created_invariant_witness :
    timesMonoFrom 0
        [(3, RegOp.create ⟨some "https://example.com", some "abc123"⟩ []),
         (5, RegOp.redirect "abc123"),
         (9, RegOp.redirect "abc123")] = true
    ∧ (run []
        [(3, RegOp.create ⟨some "https://example.com", some "abc123"⟩ []),
         (5, RegOp.redirect "abc123"),
         (9, RegOp.redirect "abc123")]).all linkInvB = true :=
  ⟨by decide, lastClicked_ge_created_invariant _ (by decide)⟩

/-- **C9.** `List` returns all links (a permutation of the registry)
ordered by `createdAt` descending; in particular links created at times
t1 < t2 < t3 come back in the order t3, t2, t1, with no pagination. -/
theorem list_ordered_desc (l1 l2 l3 : Link) (t1 t2 t3 : Nat)
    (h1 : l1.createdAt = t1) (h2 : l2.createdAt = t2) (h3 : l3.createdAt = t3)
    (h12 : t1 < t2) (h23 : t2 < t3) :
    listLinks [l1, l2, l3] = [l3, l2, l1]
    ∧ ∀ s : Store, (listLinks s).Perm s ∧ (listLinks s).Sorted byCreatedDesc := by
  constructor
  · have n32 : ¬byCreatedDesc l2 l3 := by
      simp only [byCreatedDesc, h2, h3]
      omega
    have n31 : ¬byCreatedDesc l1 l3 := by
      simp only [byCreatedDesc, h1, h3]
      omega
    have n21 : ¬byCreatedDesc l1 l2 := by
      simp only [byCreatedDesc, h1, h2]
      omega
    simp [listLinks, List.insertionSort, List.orderedInsert, n32, n31, n21]
  · intro s
    exact ⟨List.perm_insertionSort byCreatedDesc s,
      List.sorted_insertionSort byCreatedDesc s⟩

/-- Witness for **C9** at three concrete links created at times 1 < 2 < 3. -/
theorem list_ordered_desc_witness :
    listLinks [mkLink "a00000" "https://example.com" 1,
        mkLink "b00000" "https://example.com" 2,
        mkLink "c00000" "https://example.com" 3]
      = [mkLink "c00000" "https://example.com" 3,
         mkLink "b00000" "https://example.com" 2,
         mkLink "a00000" "https://example.com" 1] :=
  (list_ordered_desc (mkLink "a00000" "https://example.com" 1)
    (mkLink "b00000" "https://example.com" 2)
    (mkLink "c00000" "https://example.com" 3) 1 2 3 rfl rfl rfl
    (by decide) (by decide)).1
